import Mathlib

set_option maxHeartbeats 1000000
set_option maxRecDepth 10000

/-!
Verification of the legal-text-processing RAG pipeline.

Shallow embedding of `src/models/vector_store.py` (class `VectorStore`) and
`src/models/gemini_rag.py` (class `GeminiRAG`).  Python strings are modelled
as `List Char` where character indexing matters, floating-point distances as
`ℚ`, and the external collaborators (ChromaDB nearest-neighbour backend, the
SentenceTransformer embedding model and the Gemini generation model) as
explicit oracle parameters.  Exceptions raised by a collaborator are modelled
with `Except`.
-/

/-! ### ChunkSplitter: `VectorStore._split_text` -/

/-- The sentence-terminal characters tested by `text[i] in '.!?'`. -/
def isTerm (c : Char) : Bool := c == '.' || c == '!' || c == '?'

/-- Python slice `text[s:e]` for `0 ≤ s ≤ e`. -/
def pyslice (l : List Char) (s e : Nat) : List Char := (l.drop s).take (e - s)

/-- Python `str.strip()`: remove leading and trailing whitespace. -/
def stripChars (l : List Char) : List Char :=
  ((l.dropWhile Char.isWhitespace).reverse.dropWhile Char.isWhitespace).reverse

/-- The backward scan `for i in range(end, max(start+chunk_size-200, start), -1)`
looking for the first sentence-terminal character; scanning downward from `i0`
to `m+1` is finding the largest such index, i.e. `find?` on the reversed
ascending range. -/
def scanBack (text : List Char) (m i0 : Nat) : Option Nat :=
  (List.range' (m + 1) (i0 - m)).reverse.find? (fun j => isTerm (text.getD j ' '))

/-- One window cut of `_split_text`: `end = start + chunk_size`, possibly moved
back to just after a sentence-terminal character when `end < len(text)`. -/
def splitEnd (text : List Char) (cs start : Nat) : Nat :=
  if start + cs < text.length then
    match scanBack text (max (start + cs - 200) start) (start + cs) with
    | some i => i + 1
    | none => start + cs
  else start + cs

/-- The `while start < len(text)` loop of `_split_text`, with explicit fuel
(the Python loop need not terminate; `none` means the fuel ran out while the
loop condition still held). -/
def splitGo (text : List Char) (cs ov : Nat) : Nat → Nat → Option (List (List Char))
  | 0, start => if start < text.length then none else some []
  | fuel + 1, start =>
    if start < text.length then
      match splitGo text cs ov fuel (splitEnd text cs start - ov) with
      | none => none
      | some rest =>
        if (stripChars (pyslice text start (splitEnd text cs start))).isEmpty then some rest
        else some (stripChars (pyslice text start (splitEnd text cs start)) :: rest)
    else some []

/-- `VectorStore._split_text(text, chunk_size, overlap)`.  The loop is run with
fuel `text.length + 1`, which suffices whenever the loop terminates at all for
the given parameters (each iteration must advance the cursor to get anywhere). -/
def split_text (text : List Char) (cs ov : Nat) : Option (List (List Char)) :=
  if text.length ≤ cs then some [text]
  else splitGo text cs ov (text.length + 1) 0

/-- The same loop, recording the cut windows `[start, end)` instead of the
trimmed chunks. -/
def splitGoI (text : List Char) (cs ov : Nat) : Nat → Nat → Option (List (Nat × Nat))
  | 0, start => if start < text.length then none else some []
  | fuel + 1, start =>
    if start < text.length then
      match splitGoI text cs ov fuel (splitEnd text cs start - ov) with
      | none => none
      | some rest => some ((start, splitEnd text cs start) :: rest)
    else some []

/-- The `_split_text` call terminates: either the short-text branch is taken,
or some amount of fuel completes the loop. -/
def SplitTerminates (text : List Char) (cs ov : Nat) : Prop :=
  text.length ≤ cs ∨ ∃ fuel, (splitGo text cs ov fuel 0).isSome

/-- `c` occurs as a contiguous substring of `text` starting at index `q`. -/
def OccursAt (c text : List Char) (q : Nat) : Prop :=
  pyslice text q (q + c.length) = c

/-- Character position `p` of the original text is covered by one of the
returned chunks: some chunk occurs in the text at a span containing `p`. -/
def CoveredPos (text : List Char) (chunks : List (List Char)) (p : Nat) : Prop :=
  ∃ c ∈ chunks, ∃ q, OccursAt c text q ∧ q ≤ p ∧ p < q + c.length

example : split_text ['h', 'i'] 1000 200 = some [['h', 'i']] := by decide
example : stripChars [' ', 'a', ' '] = ['a'] := by decide
example : splitEnd ('a' :: '.' :: List.replicate 150 'b') 100 0 = 2 := by decide

/-! ### EmbeddingIndex: class `VectorStore`

Metadata values are Python scalars.  Fresh `uuid.uuid4()` document ids are
modelled as an injective supply of tokens `MVal.id n` drawn from a counter in
the store state (the model of randomness is that every draw is fresh), and the
chunk id string `f"{doc_id}_{i}"` as the token `MVal.cid n i`. -/

inductive MVal where
  | s : String → MVal
  | i : Int → MVal
  | id : Nat → MVal
  | cid : Nat → Nat → MVal
deriving DecidableEq, Repr

/-- Python dictionaries with string keys, as insertion-ordered assoc lists. -/
abbrev Meta := List (String × MVal)

/-- Python truthiness of a metadata value (`if doc_id:`). -/
def truthy : MVal → Bool
  | .s v => v ≠ ""
  | .i n => n ≠ 0
  | .id _ => true
  | .cid _ _ => true

/-- `d[k] = v` on a Python dict: update the existing key in place, else append. -/
def dictUpd (d : Meta) (k : String) (v : MVal) : Meta :=
  if d.any (fun p => p.1 == k) then d.map (fun p => if p.1 == k then (k, v) else p)
  else d ++ [(k, v)]

/-- `{**a, **b}`: entries of `b` update or extend `a` in order. -/
def dictMerge (a b : Meta) : Meta := b.foldl (fun d kv => dictUpd d kv.1 kv.2) a

/-- One chunk persisted in the ChromaDB collection. -/
structure StoredChunk where
  content : List Char
  metadata : Meta
deriving DecidableEq, Repr

/-- The `VectorStore` state: the collection contents plus the fresh-id supply. -/
structure VectorStore where
  chunks : List StoredChunk
  nextId : Nat
deriving Repr

/-- The composite metadata stored with chunk `i` of a new document:
`{**{'source': source, 'doc_id': doc_id, **(metadata or {})},
  'chunk_index': i, 'chunk_id': f"{doc_id}_{i}"}`. -/
def chunkMetadata (docId : Nat) (source : String) (md : Meta) (i : Nat) : Meta :=
  dictMerge (dictMerge [("source", MVal.s source), ("doc_id", MVal.id docId)] md)
    [("chunk_index", MVal.i (i : Int)), ("chunk_id", MVal.cid docId i)]

/-- `VectorStore.add_document(text, source, metadata)`: generate a fresh id,
split the text with the default `chunk_size=1000, overlap=200`, and persist
each chunk.  Returns the new doc id and the updated store. -/
def add_document (st : VectorStore) (text : List Char) (source : String) (md : Meta) :
    MVal × VectorStore :=
  let chunks := (split_text text 1000 200).getD []
  (MVal.id st.nextId,
   ⟨st.chunks ++ chunks.enum.map (fun ic => ⟨ic.2, chunkMetadata st.nextId source md ic.1⟩),
    st.nextId + 1⟩)

/-- One entry of the `doc_groups` dict built by `list_documents`. -/
structure DocGroup where
  doc_id : MVal
  source : MVal
  chunks : Nat
  metadata : Meta
deriving DecidableEq, Repr

/-- The values appearing in a `list_documents` record. -/
inductive GVal where
  | v : MVal → GVal
  | n : Nat → GVal
  | m : Meta → GVal
deriving DecidableEq, Repr

/-- The record dict literal
`{'doc_id': ..., 'source': ..., 'chunks': ..., 'metadata': ...}`. -/
def DocGroup.toDict (g : DocGroup) : List (String × GVal) :=
  [("doc_id", .v g.doc_id), ("source", .v g.source), ("chunks", .n g.chunks),
   ("metadata", .m g.metadata)]

/-- One step of the grouping loop in `list_documents`: skip falsy / missing
`doc_id`; create the group (with the first chunk's metadata and source) on
first sight, then count the chunk. -/
def addMeta (groups : List (MVal × DocGroup)) (md : Meta) : List (MVal × DocGroup) :=
  match md.lookup "doc_id" with
  | none => groups
  | some did =>
    if truthy did then
      if groups.any (fun p => p.1 == did) then
        groups.map (fun p => if p.1 == did then (p.1, { p.2 with chunks := p.2.chunks + 1 }) else p)
      else groups ++ [(did, ⟨did, (md.lookup "source").getD (MVal.s "Unknown"), 1, md⟩)]
    else groups

/-- The insertion-ordered `doc_groups` dict of `list_documents`. -/
def listGroups (st : VectorStore) : List (MVal × DocGroup) :=
  (st.chunks.map (·.metadata)).foldl addMeta []

/-- `VectorStore.list_documents()`. -/
def list_documents (st : VectorStore) : List (List (String × GVal)) :=
  (listGroups st).map (fun p => p.2.toDict)

/-- `VectorStore.get_document_count()`: `len(self.list_documents())`. -/
def get_document_count (st : VectorStore) : Nat := (list_documents st).length

/-- A formatted search result (`content`, `metadata`, `distance`, `score`). -/
structure QueryResult where
  content : List Char
  metadata : Meta
  distance : Option ℚ
  score : ℚ
deriving DecidableEq, Repr

/-- The reply shape of `collection.query(query_texts=[query], n_results=k)`:
one inner list per query text. -/
structure ChromaReply where
  documents : List (List (List Char))
  metadatas : List (List Meta)
  distances : Option (List (List ℚ))

/-- The ChromaDB nearest-neighbour backend: the opaque embedding model and the
vector metric are summarised by a distance oracle `dist` on stored chunks; the
backend returns the (at most) `k` nearest chunks in ascending distance order. -/
def chromaQuery (st : VectorStore) (dist : StoredChunk → ℚ) (k : Nat) : ChromaReply :=
  let nearest := (List.insertionSort (fun a b => dist a ≤ dist b) st.chunks).take k
  { documents := [nearest.map (·.content)],
    metadatas := [nearest.map (·.metadata)],
    distances := some [nearest.map dist] }

/-- The result-formatting loop of `VectorStore.search`: guarded by the
truthiness of `results['documents']`, iterating `i` over
`range(len(results['documents'][0]))`; `score` is `1 - distance` when
`results.get('distances')` is truthy, else `1.0`. -/
def formatResults (r : ChromaReply) : List QueryResult :=
  match r.documents with
  | [] => []
  | docs0 :: _ =>
    (List.range docs0.length).map (fun i =>
      { content := docs0.getD i [],
        metadata := (r.metadatas.getD 0 []).getD i [],
        distance := match r.distances with
          | some (ds0 :: _) => some (ds0.getD i 0)
          | _ => none,
        score := match r.distances with
          | some (ds0 :: _) => 1 - ds0.getD i 0
          | _ => 1 })

/-- `VectorStore.search` given the outcome of the backend query: any raised
failure is caught and an empty list returned. -/
def searchWith (reply : Except String ChromaReply) : List QueryResult :=
  match reply with
  | .error _ => []
  | .ok r => formatResults r

/-- `VectorStore.search(query, top_k)` when the backend query succeeds. -/
def search (st : VectorStore) (dist : StoredChunk → ℚ) (k : Nat) : List QueryResult :=
  searchWith (.ok (chromaQuery st dist k))

example :
    search ⟨[⟨['x'], [("doc_id", MVal.id 0)]⟩], 1⟩ (fun _ => 2) 5 =
      [⟨['x'], [("doc_id", MVal.id 0)], some 2, -1⟩] := by
  simp [search, searchWith, chromaQuery, formatResults, List.insertionSort,
    List.orderedInsert, List.range_succ]
  norm_num
example : search ⟨[], 0⟩ (fun _ => 2) 5 = [] := by
  simp [search, searchWith, chromaQuery, formatResults, List.insertionSort]


/-! ### RAGOrchestrator: class `GeminiRAG`

The Gemini generation model is an oracle from prompts to outcomes; a raised
generation failure is an `Except.error` carrying its description.  The two
`time.time()` readings are the parameters `t0` (at entry) and `t1` (when the
returned dict is built). -/

/-- Python `str()` of a metadata value as interpolated into an f-string (the
rendering of the opaque uuid tokens is an arbitrary fixed injection). -/
def mvalStr : MVal → String
  | .s v => v
  | .i n => toString n
  | .id n => "uuid-" ++ toString n
  | .cid d j => "uuid-" ++ toString d ++ "_" ++ toString j

/-- The fixed apology answer of the degraded branch of `get_response`. -/
def apologyAnswer : String :=
  "I apologize, but I encountered an error while processing your question. Please try again."

/-- The fixed fallback string of `summarize_text`. -/
def fallbackSummary : String := "Unable to generate summary at this time."

/-- `GeminiRAG._create_context`. -/
def create_context (docs : List QueryResult) : String :=
  String.intercalate "\n"
    ((docs.enum.map (fun idoc =>
      ["Document " ++ toString (idoc.1 + 1) ++ ":",
       "Source: " ++ mvalStr ((idoc.2.metadata.lookup "source").getD (MVal.s "Unknown")),
       "Content: " ++ String.mk idoc.2.content,
       "---"])).flatten)

/-- `GeminiRAG._create_prompt`. -/
def create_prompt (query context : String) : String :=
  "You are an expert legal assistant specializing in Indian law. Use the provided context to answer the user\x27s question accurately.\n\nContext from Legal Documents:\n"
  ++ context
  ++ "\n\nUser Question: " ++ query
  ++ "\n\nInstructions:\n1. Answer based primarily on the provided context\n2. If the context doesn\x27t contain relevant information, clearly state this\n3. Provide specific legal provisions, section numbers, and act names when applicable\n4. Give practical, actionable advice when appropriate\n5. Use clear, professional language\n6. If referring to legal procedures, provide step-by-step guidance\n\nPlease provide a detailed and helpful response:"

/-- The summarization instruction template of `summarize_text`. -/
def summarizePrompt (text : String) : String :=
  "Summarize the following legal text clearly and concisely:\n\n"
  ++ text
  ++ "\n\nProvide a summary that captures the essential legal points:"

/-- The dict returned by `GeminiRAG.get_response`. -/
structure RAGResponse where
  answer : String
  sources : List Meta
  context_used : Nat
  processing_time : ℚ
  error : Option String
deriving DecidableEq, Repr

/-- `GeminiRAG.get_response(query, top_k)`: `searchOut` is the outcome of
`self.vector_store.search` (which raises an exception exactly when it is
`Except.error`), `gen` the generation oracle.  Every failure raised inside the
`try` block lands in the `except` branch, which builds the degraded dict. -/
def get_response (searchOut : Except String (List QueryResult))
    (gen : String → Except String String) (query : String) (t0 t1 : ℚ) : RAGResponse :=
  match searchOut with
  | .error e => ⟨apologyAnswer, [], 0, t1 - t0, some e⟩
  | .ok docs =>
    match gen (create_prompt query (create_context docs)) with
    | .error e => ⟨apologyAnswer, [], 0, t1 - t0, some e⟩
    | .ok txt => ⟨txt, docs.map (·.metadata), docs.length, t1 - t0, none⟩

/-- `GeminiRAG.summarize_text(text)`. -/
def summarize_text (gen : String → Except String String) (text : String) : String :=
  match gen (summarizePrompt text) with
  | .ok t => t
  | .error _ => fallbackSummary

example :
    (get_response (.error "down") (fun _ => .ok "hi") "q" 0 1).answer = apologyAnswer := rfl
example :
    (get_response (.ok []) (fun _ => .ok "hi") "q" 0 1).answer = "hi" := rfl

/-! ### Claims about the orchestrator -/

/-- C1: for every query and top_k, `get_response` never raises (the embedding
is total over all collaborator outcomes): any failure raised during retrieval
or generation lands in the `except` branch, and the returned dict carries the
fixed apology answer, `sources=[]`, `context_used=0`, a measured
`processing_time`, and a populated `error` field. -/
theorem getResponse_degraded (s : Except String (List QueryResult))
    (gen : String → Except String String) (q : String) (t0 t1 : ℚ)
    (h : (∃ e, s = .error e) ∨
      (∃ docs e, s = .ok docs ∧ gen (create_prompt q (create_context docs)) = .error e)) :
    (get_response s gen q t0 t1).answer = apologyAnswer ∧
    (get_response s gen q t0 t1).sources = [] ∧
    (get_response s gen q t0 t1).context_used = 0 ∧
    (get_response s gen q t0 t1).processing_time = t1 - t0 ∧
    (get_response s gen q t0 t1).error.isSome := by
  rcases h with ⟨e, rfl⟩ | ⟨docs, e, rfl, hg⟩
  · simp [get_response]
  · simp [get_response, hg]

theorem getResponse_degraded_witness :
    ((∃ e, (.error "down" : Except String (List QueryResult)) = .error e) ∨
      (∃ docs e, (.error "down" : Except String (List QueryResult)) = .ok docs ∧
        (fun _ => (.ok "a" : Except String String))
          (create_prompt "q" (create_context docs)) = .error e)) ∧
    ((get_response (.error "down") (fun _ => .ok "a") "q" 0 1).answer = apologyAnswer ∧
     (get_response (.error "down") (fun _ => .ok "a") "q" 0 1).sources = [] ∧
     (get_response (.error "down") (fun _ => .ok "a") "q" 0 1).context_used = 0 ∧
     (get_response (.error "down") (fun _ => .ok "a") "q" 0 1).processing_time = 1 - 0 ∧
     (get_response (.error "down") (fun _ => .ok "a") "q" 0 1).error.isSome) :=
  ⟨Or.inl ⟨"down", rfl⟩,
   getResponse_degraded (.error "down") (fun _ => .ok "a") "q" 0 1 (Or.inl ⟨"down", rfl⟩)⟩

/-- C5 counterexample: retrieval returns one chunk and generation fails, yet
`context_used` in the returned dict is `0`, not `1` — the `except` branch
always reports `context_used: 0`. -/
theorem getResponse_contextUsed_cex :
    ([(⟨['a'], [], none, 1⟩ : QueryResult)].length = 1) ∧
    (get_response (.ok [⟨['a'], [], none, 1⟩]) (fun _ => .error "quota") "q" 0 1).error.isSome ∧
    (get_response (.ok [⟨['a'], [], none, 1⟩]) (fun _ => .error "quota") "q" 0 1).answer
      = apologyAnswer ∧
    (get_response (.ok [⟨['a'], [], none, 1⟩]) (fun _ => .error "quota") "q" 0 1).context_used
      = 0 ∧
    (get_response (.ok [⟨['a'], [], none, 1⟩]) (fun _ => .error "quota") "q" 0 1).context_used
      ≠ 1 := by
  refine ⟨rfl, ?_, ?_, ?_, ?_⟩ <;> simp [get_response]

/-- C5 amended: when generation fails after retrieval succeeded, `get_response`
returns the degraded dict with `error` set, the fixed fallback answer, and
`context_used = 0` regardless of how many chunks were retrieved. -/
theorem getResponse_genFail (docs : List QueryResult)
    (gen : String → Except String String) (q : String) (t0 t1 : ℚ) (e : String)
    (hg : gen (create_prompt q (create_context docs)) = .error e) :
    get_response (.ok docs) gen q t0 t1 = ⟨apologyAnswer, [], 0, t1 - t0, some e⟩ := by
  simp [get_response, hg]

theorem getResponse_genFail_witness :
    ((fun _ => (.error "quota" : Except String String))
        (create_prompt "q" (create_context [⟨['a'], [], none, 1⟩])) = .error "quota") ∧
    get_response (.ok [⟨['a'], [], none, 1⟩]) (fun _ => .error "quota") "q" 0 1
      = ⟨apologyAnswer, [], 0, 1 - 0, some "quota"⟩ :=
  ⟨rfl, getResponse_genFail [⟨['a'], [], none, 1⟩] (fun _ => .error "quota") "q" 0 1 "quota" rfl⟩

/-- C9: `summarize_text` never raises (totality of the embedding): on success
it returns the generator's text for the fixed summarization template applied
to the input, and on any generation failure the fixed fallback string. -/
theorem summarizeText_spec (gen : String → Except String String) (text : String) :
    (∃ t, gen (summarizePrompt text) = .ok t ∧ summarize_text gen text = t) ∨
    ((∃ e, gen (summarizePrompt text) = .error e) ∧
      summarize_text gen text = fallbackSummary) := by
  cases hg : gen (summarizePrompt text) with
  | ok t => exact Or.inl ⟨t, rfl, by simp [summarize_text, hg]⟩
  | error e => exact Or.inr ⟨⟨e, rfl⟩, by simp [summarize_text, hg]⟩

/-! ### Claims about the splitter -/

/-- C3 counterexample: for the 5-character text `"  a  "` (length ≤ chunk
size), `_split_text` returns the text *untrimmed*, not the trimmed text
`"a"` the claim demands. -/
theorem split_short_cex :
    split_text [' ', ' ', 'a', ' ', ' '] 1000 200 = some [[' ', ' ', 'a', ' ', ' ']] ∧
    stripChars [' ', ' ', 'a', ' ', ' '] = ['a'] ∧
    split_text [' ', ' ', 'a', ' ', ' '] 1000 200
      ≠ some [stripChars [' ', ' ', 'a', ' ', ' ']] :=
  ⟨by decide, by decide, by decide⟩

/-- C3 amended: for every text of length at most `chunk_size`, `_split_text`
returns exactly one chunk, equal to the text itself (not trimmed). -/
theorem split_short (text : List Char) (cs ov : Nat) (h : text.length ≤ cs) :
    split_text text cs ov = some [text] := by
  simp [split_text, h]

theorem split_short_witness :
    ([' ', 'a'] : List Char).length ≤ 1000 ∧
    split_text [' ', 'a'] 1000 200 = some [[' ', 'a']] :=
  ⟨by decide, split_short [' ', 'a'] 1000 200 (by decide)⟩

/-- C6: `search` returns `[]` and never raises (totality of the embedding)
both when the backing store's query operation fails — the failure is caught
inside `search` — and when the index holds no chunks. -/
theorem search_empty_or_fail (e : String) (dist : StoredChunk → ℚ) (k n : Nat) :
    searchWith (.error e) = [] ∧ search ⟨[], n⟩ dist k = [] := by
  refine ⟨rfl, ?_⟩
  simp [search, searchWith, chromaQuery, formatResults, List.insertionSort]

/-- If the cursor fails to advance at a position inside the text, the
`_split_text` loop never completes, whatever the fuel. -/
lemma splitGo_stuck (text : List Char) (cs ov start : Nat)
    (hlt : start < text.length) (hfix : splitEnd text cs start - ov = start) :
    ∀ fuel, splitGo text cs ov fuel start = none := by
  intro fuel
  induction fuel with
  | zero => simp [splitGo, hlt]
  | succ n ih => simp [splitGo, hlt, hfix, ih]

/-- C4 counterexample.  First conjunct: with `chunk_size = 100 > overlap = 50`
and the 152-character text `"a." + "b"*150`, the sentence-boundary scan pulls
the cut back to index 2, the cursor `2 - 50` clamps to 0, and the loop never
terminates.  Second conjunct: with `chunk_size = 199 > overlap = 0` the
252-character text `"a." + " "*250` splits (terminating) into the single chunk
`"a."`, and the whitespace position 2 of the original text is covered by no
returned chunk, because trimming discarded it. -/
theorem split_cover_cex :
    (50 < 100 ∧ ¬ SplitTerminates ('a' :: '.' :: List.replicate 150 'b') 100 50) ∧
    (0 < 199 ∧
      split_text ('a' :: '.' :: List.replicate 250 ' ') 199 0 = some [['a', '.']] ∧
      2 < ('a' :: '.' :: List.replicate 250 ' ').length ∧
      ¬ CoveredPos ('a' :: '.' :: List.replicate 250 ' ') [['a', '.']] 2) := by
  refine ⟨⟨by decide, ?_⟩, by decide, by decide, by decide, ?_⟩
  · rintro (h | ⟨fuel, hf⟩)
    · exact absurd h (by decide)
    · rw [splitGo_stuck _ _ _ _ (by decide) (by decide)] at hf
      exact absurd hf (by decide)
  · rintro ⟨c, hc, q, hocc, hq1, hq2⟩
    simp only [List.mem_singleton] at hc
    subst hc
    simp only [List.length_cons, List.length_nil] at hq2
    have hq : q = 1 ∨ q = 2 := by omega
    rcases hq with rfl | rfl
    · unfold OccursAt at hocc; exact absurd hocc (by decide)
    · unfold OccursAt at hocc; exact absurd hocc (by decide)

/-- A successful backward scan lands strictly above `m` and at most at `i0`. -/
lemma scanBack_bounds {text : List Char} {m i0 j : Nat} (h : scanBack text m i0 = some j) :
    m < j ∧ j ≤ i0 := by
  have hmem := List.mem_of_find?_eq_some h
  rw [List.mem_reverse] at hmem
  have := List.mem_range'_1.mp hmem
  omega

/-- The possible values of a window end: the hard cut at `start + chunk_size`,
or a sentence cut no more than 200 back from it (and past `start`). -/
lemma splitEnd_cases (text : List Char) (cs start : Nat) :
    splitEnd text cs start = start + cs ∨
    (start + cs - 200 + 2 ≤ splitEnd text cs start ∧ start + 2 ≤ splitEnd text cs start ∧
      splitEnd text cs start ≤ start + cs + 1) := by
  by_cases hb : start + cs < text.length
  · cases hs : scanBack text (max (start + cs - 200) start) (start + cs) with
    | none => left; unfold splitEnd; rw [if_pos hb, hs]
    | some i =>
      obtain ⟨h1, h2⟩ := scanBack_bounds hs
      have hm1 := Nat.le_max_left (start + cs - 200) start
      have hm2 := Nat.le_max_right (start + cs - 200) start
      have he : splitEnd text cs start = i + 1 := by unfold splitEnd; rw [if_pos hb, hs]
      rw [he]; right; omega
  · left; unfold splitEnd; rw [if_neg hb]

/-- The cursor strictly advances when `overlap + 199 ≤ chunk_size`. -/
lemma splitEnd_advance (text : List Char) (cs ov start : Nat) (h : ov + 199 ≤ cs) :
    start + 1 ≤ splitEnd text cs start - ov := by
  rcases splitEnd_cases text cs start with he | ⟨he1, he2, _⟩ <;> omega

/-- With `overlap + 199 ≤ chunk_size`, fuel `text.length` (from cursor 0)
completes the window loop. -/
lemma splitGoI_isSome (text : List Char) (cs ov : Nat) (h : ov + 199 ≤ cs) :
    ∀ fuel start, text.length ≤ fuel + start → (splitGoI text cs ov fuel start).isSome := by
  intro fuel
  induction fuel with
  | zero =>
    intro start hls
    have hge : ¬ start < text.length := by omega
    simp [splitGoI, hge]
  | succ n ih =>
    intro start hls
    by_cases hlt : start < text.length
    · have hadv := splitEnd_advance text cs ov start h
      have hrec := ih (splitEnd text cs start - ov) (by omega)
      simp only [splitGoI, hlt, if_true]
      cases hrc : splitGoI text cs ov n (splitEnd text cs start - ov) with
      | none => rw [hrc] at hrec; simp at hrec
      | some ws => simp
    · simp [splitGoI, hlt]

/-- The chunk loop returns exactly the recorded windows, sliced out of the
text, trimmed, with empty chunks dropped. -/
lemma splitGo_eq_windows (text : List Char) (cs ov : Nat) :
    ∀ fuel start, splitGo text cs ov fuel start =
      (splitGoI text cs ov fuel start).map
        (fun ws => (ws.map (fun se => stripChars (pyslice text se.1 se.2))).filter
          (fun c => !c.isEmpty)) := by
  intro fuel
  induction fuel with
  | zero => intro start; by_cases hlt : start < text.length <;> simp [splitGo, splitGoI, hlt]
  | succ n ih =>
    intro start
    by_cases hlt : start < text.length
    · simp only [splitGo, splitGoI, hlt, if_true, ih]
      cases hrc : splitGoI text cs ov n (splitEnd text cs start - ov) with
      | none => simp
      | some ws =>
        simp only [Option.map_some', List.map_cons, List.filter_cons]
        by_cases hemp : (stripChars (pyslice text start (splitEnd text cs start))).isEmpty
        · simp [hemp]
        · simp [hemp]
    · simp [splitGo, splitGoI, hlt]

/-- Every position from the cursor onward lies in some recorded window. -/
lemma splitGoI_covers (text : List Char) (cs ov : Nat) :
    ∀ fuel start ws, splitGoI text cs ov fuel start = some ws →
      ∀ p, start ≤ p → p < text.length → ∃ se ∈ ws, se.1 ≤ p ∧ p < se.2 := by
  intro fuel
  induction fuel with
  | zero =>
    intro start ws hws p hsp hpl
    by_cases hlt : start < text.length
    · simp [splitGoI, hlt] at hws
    · omega
  | succ n ih =>
    intro start ws hws p hsp hpl
    by_cases hlt : start < text.length
    · simp only [splitGoI, hlt, if_true] at hws
      cases hrc : splitGoI text cs ov n (splitEnd text cs start - ov) with
      | none => rw [hrc] at hws; simp at hws
      | some ws' =>
        rw [hrc] at hws
        simp only [Option.some.injEq] at hws
        subst hws
        by_cases hpe : p < splitEnd text cs start
        · exact ⟨(start, splitEnd text cs start), by simp, hsp, hpe⟩
        · obtain ⟨se, hmem, h1, h2⟩ :=
            ih (splitEnd text cs start - ov) ws' hrc p (by omega) hpl
          exact ⟨se, by simp [hmem], h1, h2⟩
    · omega

/-- `strip` decomposes a list as whitespace ++ core ++ whitespace. -/
lemma stripChars_decomp (l : List Char) :
    ∃ t u, l = t ++ stripChars l ++ u ∧
      (∀ x ∈ t, x.isWhitespace) ∧ (∀ x ∈ u, x.isWhitespace) := by
  refine ⟨l.takeWhile Char.isWhitespace,
    ((l.dropWhile Char.isWhitespace).reverse.takeWhile Char.isWhitespace).reverse,
    ?_, fun x hx => List.mem_takeWhile_imp hx, fun x hx => ?_⟩
  · rw [List.append_assoc]
    conv_lhs => rw [← List.takeWhile_append_dropWhile (p := Char.isWhitespace) (l := l)]
    congr 1
    unfold stripChars
    conv_lhs => rw [← List.reverse_reverse (l.dropWhile Char.isWhitespace),
      ← List.takeWhile_append_dropWhile (p := Char.isWhitespace)
        (l := (l.dropWhile Char.isWhitespace).reverse),
      List.reverse_append]
  · rw [List.mem_reverse] at hx
    exact List.mem_takeWhile_imp hx


/-- A list occurs in any list that embeds it between two others, at the offset
given by the prefix. -/
lemma occursAt_append (A c B : List Char) : OccursAt c (A ++ (c ++ B)) A.length := by
  unfold OccursAt pyslice
  rw [Nat.add_sub_cancel_left, List.drop_left, List.take_left]

/-- A window `[s, e)` whose trimmed slice survives covers every non-whitespace
position inside it: the trimmed slice occurs in the text at a span containing
that position. -/
lemma window_covers (text : List Char) (s e p : Nat)
    (hsp : s ≤ p) (hpe : p < e) (hpl : p < text.length)
    (hws : (text.getD p ' ').isWhitespace = false) :
    ∃ q, OccursAt (stripChars (pyslice text s e)) text q ∧ q ≤ p ∧
      p < q + (stripChars (pyslice text s e)).length := by
  obtain ⟨t, u, hdec, hts, hus⟩ := stripChars_decomp (pyslice text s e)
  set c := stripChars (pyslice text s e) with hcdef
  have hsl : s ≤ text.length := by omega
  have hLlen : p - s < (pyslice text s e).length := by
    unfold pyslice
    rw [List.length_take, List.length_drop]
    omega
  have hdrop : text.drop s = pyslice text s e ++ (text.drop s).drop (e - s) := by
    conv_rhs => rw [show pyslice text s e = (text.drop s).take (e - s) from rfl]
    rw [List.take_append_drop]
  have htext : text = text.take s ++ (pyslice text s e ++ (text.drop s).drop (e - s)) := by
    conv_lhs => rw [← List.take_append_drop s text, hdrop]
  have htks : (text.take s).length = s := by rw [List.length_take]; omega
  have hchar : text.getD p ' ' = (pyslice text s e).getD (p - s) ' ' := by
    conv_lhs => rw [htext]
    rw [List.getD_append_right _ _ _ _ (by omega : (text.take s).length ≤ p), htks,
      List.getD_append _ _ _ _ hLlen]
  have hcw : ((pyslice text s e).getD (p - s) ' ').isWhitespace = false := by
    rw [← hchar]; exact hws
  have hq1 : s + t.length ≤ p := by
    by_contra hlt
    push_neg at hlt
    have hidx : p - s < t.length := by omega
    have hend : (pyslice text s e).getD (p - s) ' ' = t.getD (p - s) ' ' := by
      conv_lhs => rw [hdec, List.append_assoc]
      exact List.getD_append _ _ _ _ hidx
    have hmem : (pyslice text s e).getD (p - s) ' ' ∈ t := by
      rw [hend, List.getD_eq_getElem _ _ hidx]
      exact List.getElem_mem hidx
    exact absurd (hts _ hmem) (by rw [hcw]; exact Bool.false_ne_true)
  have hLsum : (pyslice text s e).length = t.length + c.length + u.length := by
    conv_lhs => rw [hdec]
    simp [List.length_append]
    omega
  have hq2 : p < s + t.length + c.length := by
    by_contra hge
    push_neg at hge
    have hidx2 : (t ++ c).length ≤ p - s := by
      rw [List.length_append]; omega
    have hidx3 : p - s - (t ++ c).length < u.length := by
      rw [List.length_append]; omega
    have hend : (pyslice text s e).getD (p - s) ' ' = u.getD (p - s - (t ++ c).length) ' ' := by
      conv_lhs => rw [hdec]
      exact List.getD_append_right _ _ _ _ hidx2
    have hmem : (pyslice text s e).getD (p - s) ' ' ∈ u := by
      rw [hend, List.getD_eq_getElem _ _ hidx3]
      exact List.getElem_mem hidx3
    exact absurd (hus _ hmem) (by rw [hcw]; exact Bool.false_ne_true)
  refine ⟨s + t.length, ?_, hq1, by omega⟩
  have htext2 : text = (text.take s ++ t) ++ (c ++ (u ++ (text.drop s).drop (e - s))) := by
    conv_lhs => rw [htext]
    conv_lhs => rw [hdec]
    simp [List.append_assoc]
  rw [show s + t.length = (text.take s ++ t).length from by rw [List.length_append, htks]]
  conv_lhs => rw [htext2]
  exact occursAt_append (text.take s ++ t) c (u ++ (text.drop s).drop (e - s))

/-- C4 amended: for every text and every pair `(chunk_size, overlap)` with
`overlap + 199 ≤ chunk_size` (so that the cursor outruns the 200-character
lookback even after overlap), `_split_text` terminates, and every
*non-whitespace* character position of the original text is contained in at
least one returned chunk (whitespace positions can be dropped by trimming). -/
theorem split_covers (text : List Char) (cs ov : Nat) (h : ov + 199 ≤ cs) :
    SplitTerminates text cs ov ∧
    ∃ chunks, split_text text cs ov = some chunks ∧
      ∀ p, p < text.length → (text.getD p ' ').isWhitespace = false →
        CoveredPos text chunks p := by
  by_cases hshort : text.length ≤ cs
  · refine ⟨Or.inl hshort, [text], by simp [split_text, hshort], ?_⟩
    intro p hp hw
    refine ⟨text, by simp, 0, ?_, by omega, by omega⟩
    unfold OccursAt pyslice
    simp
  · have hsome := splitGoI_isSome text cs ov h (text.length + 1) 0 (by omega)
    obtain ⟨ws, hws⟩ := Option.isSome_iff_exists.mp hsome
    have hsplit : split_text text cs ov =
        some ((ws.map (fun se => stripChars (pyslice text se.1 se.2))).filter
          (fun c => !c.isEmpty)) := by
      unfold split_text
      rw [if_neg hshort, splitGo_eq_windows, hws, Option.map_some']
    refine ⟨Or.inr ⟨text.length + 1, ?_⟩, _, hsplit, ?_⟩
    · rw [splitGo_eq_windows, hws]; simp
    · intro p hp hw
      obtain ⟨se, hmem, h1, h2⟩ :=
        splitGoI_covers text cs ov (text.length + 1) 0 ws hws p (by omega) hp
      obtain ⟨q, hocc, hq1, hq2⟩ := window_covers text se.1 se.2 p h1 h2 hp hw
      refine ⟨stripChars (pyslice text se.1 se.2), ?_, q, hocc, hq1, hq2⟩
      rw [List.mem_filter]
      refine ⟨List.mem_map_of_mem _ hmem, ?_⟩
      cases hcnil : stripChars (pyslice text se.1 se.2) with
      | nil => rw [hcnil] at hq2; simp at hq2; omega
      | cons a l => simp [List.isEmpty]

theorem split_covers_witness :
    (0 : Nat) + 199 ≤ 199 ∧
    (SplitTerminates ['h', 'i'] 199 0 ∧
      ∃ chunks, split_text ['h', 'i'] 199 0 = some chunks ∧
        ∀ p, p < (['h', 'i'] : List Char).length →
          ((['h', 'i'] : List Char).getD p ' ').isWhitespace = false →
          CoveredPos ['h', 'i'] chunks p) :=
  ⟨by decide, split_covers ['h', 'i'] 199 0 (by decide)⟩

/-- The formatted result for a stored chunk at its reported distance. -/
def mkResult (dist : StoredChunk → ℚ) (c : StoredChunk) : QueryResult :=
  ⟨c.content, c.metadata, some (dist c), 1 - dist c⟩

/-- Formatting the aligned backend reply is mapping over the returned chunks. -/
lemma formatResults_query (l : List StoredChunk) (dist : StoredChunk → ℚ) :
    formatResults ⟨[l.map (·.content)], [l.map (·.metadata)], some [l.map dist]⟩ =
      l.map (mkResult dist) := by
  apply List.ext_getElem
  · simp [formatResults]
  · intro i h1 h2
    have hi : i < l.length := by simpa using h2
    have hc : i < (l.map (fun x => x.content)).length := by simpa using hi
    have hm : i < (l.map (fun x => x.metadata)).length := by simpa using hi
    have hd : i < (l.map dist).length := by simpa using hi
    show ((List.range (l.map (fun x => x.content)).length).map _)[i] = _
    rw [List.getElem_map, List.getElem_range]
    show QueryResult.mk ((l.map (fun x => x.content)).getD i [])
        ((l.map (fun x => x.metadata)).getD i [])
        (some ((l.map dist).getD i 0)) (1 - (l.map dist).getD i 0) = _
    rw [List.getD_eq_getElem _ _ hc, List.getD_eq_getElem _ _ hm, List.getD_eq_getElem _ _ hd,
      List.getElem_map, List.getElem_map, List.getElem_map, List.getElem_map]
    rfl

/-- `search` formats exactly the (at most) `k` nearest stored chunks, in the
backend's ascending-distance order. -/
lemma search_eq (st : VectorStore) (dist : StoredChunk → ℚ) (k : Nat) :
    search st dist k =
      ((List.insertionSort (fun a b => dist a ≤ dist b) st.chunks).take k).map
        (mkResult dist) := by
  unfold search searchWith chromaQuery
  exact formatResults_query _ dist

/-- C2 counterexample: a store holding one chunk whose reported vector
distance is `2` yields the score `1 - 2 = -1`, which is neither
`max(0, min(1, 1 - d)) = 0` nor inside `[0, 1]` — `search` does not clamp. -/
theorem search_score_cex :
    (search ⟨[⟨['x'], [("doc_id", MVal.id 0)]⟩], 1⟩ (fun _ => 2) 5).map QueryResult.score
      = [-1] ∧
    ¬ ((-1 : ℚ) = max 0 (min 1 (1 - 2))) ∧ ¬ ((0 : ℚ) ≤ -1) := by
  refine ⟨?_, by norm_num, by norm_num⟩
  rw [search_eq]
  simp [List.insertionSort, List.orderedInsert, mkResult]
  norm_num

/-- C2 amended: `search(q, top_k=k)` returns at most `k` results; each
result's score equals `1 - d` for the stored vector distance `d` of that
result (no clamping, so scores can leave `[0, 1]` when `d` does); and the
returned list is sorted by non-increasing score. -/
theorem search_spec (st : VectorStore) (dist : StoredChunk → ℚ) (k : Nat) :
    (search st dist k).length ≤ k ∧
    (∀ r ∈ search st dist k, ∃ c ∈ st.chunks,
      r.content = c.content ∧ r.metadata = c.metadata ∧
      r.distance = some (dist c) ∧ r.score = 1 - dist c) ∧
    (search st dist k).Pairwise (fun a b => b.score ≤ a.score) := by
  rw [search_eq]
  refine ⟨?_, ?_, ?_⟩
  · rw [List.length_map, List.length_take]
    exact min_le_left _ _
  · intro r hr
    rw [List.mem_map] at hr
    obtain ⟨c, hc, rfl⟩ := hr
    have hmem : c ∈ st.chunks :=
      (List.perm_insertionSort (fun a b => dist a ≤ dist b) st.chunks).subset
        (List.take_subset _ _ hc)
    exact ⟨c, hmem, rfl, rfl, rfl, rfl⟩
  · rw [List.pairwise_map]
    have hsorted : (List.insertionSort (fun a b => dist a ≤ dist b) st.chunks).Sorted
        (fun a b => dist a ≤ dist b) := by
      haveI : IsTotal StoredChunk (fun a b => dist a ≤ dist b) := ⟨fun a b => le_total _ _⟩
      haveI : IsTrans StoredChunk (fun a b => dist a ≤ dist b) :=
        ⟨fun a b c h1 h2 => le_trans h1 h2⟩
      exact List.sorted_insertionSort _ _
    have htake := hsorted.sublist (List.take_sublist k _)
    refine htake.imp ?_
    intro a b hab
    show (mkResult dist b).score ≤ (mkResult dist a).score
    unfold mkResult
    simp only []
    linarith

/-! ### Dictionary lemmas for the composite chunk metadata -/

lemma lookup_cons_self {k : String} {v : MVal} {tl : Meta} :
    ((k, v) :: tl).lookup k = some v := by
  simp [List.lookup]

lemma lookup_cons_ne {p : String × MVal} {tl : Meta} {k : String} (h : (k == p.1) = false) :
    (p :: tl).lookup k = tl.lookup k := by
  rcases p with ⟨k0, v0⟩
  simp only at h
  simp [List.lookup, h]

lemma lookup_eq_none_of_notin (d : Meta) (k : String) (h : k ∉ d.map Prod.fst) :
    d.lookup k = none := by
  induction d with
  | nil => rfl
  | cons p tl ih =>
    simp only [List.map_cons, List.mem_cons] at h
    push_neg at h
    rw [lookup_cons_ne (beq_eq_false_iff_ne.mpr h.1)]
    exact ih h.2

lemma lookup_map_upd_ne (d : Meta) (k k' : String) (v : MVal) (hne : k' ≠ k) :
    (d.map (fun q => if q.1 == k then (k, v) else q)).lookup k' = d.lookup k' := by
  induction d with
  | nil => rfl
  | cons p tl ih =>
    by_cases hp : (p.1 == k) = true
    · have hk : k' ≠ p.1 := by rw [beq_iff_eq] at hp; rw [hp]; exact hne
      rw [List.map_cons, if_pos hp, lookup_cons_ne (beq_eq_false_iff_ne.mpr hne),
        lookup_cons_ne (beq_eq_false_iff_ne.mpr hk)]
      exact ih
    · rw [List.map_cons, if_neg hp]
      by_cases hk : (k' == p.1) = true
      · rcases p with ⟨k0, v0⟩
        rw [beq_iff_eq] at hk
        subst hk
        rw [lookup_cons_self, lookup_cons_self]
      · have hkf : (k' == p.1) = false := Bool.eq_false_iff.mpr hk
        rw [lookup_cons_ne hkf, lookup_cons_ne hkf]
        exact ih

lemma lookup_append_single_ne (d : Meta) (k k' : String) (v : MVal) (hne : k' ≠ k) :
    (d ++ [(k, v)]).lookup k' = d.lookup k' := by
  induction d with
  | nil =>
    simp only [List.nil_append]
    rw [lookup_cons_ne (beq_eq_false_iff_ne.mpr hne)]
  | cons p tl ih =>
    by_cases hk : (k' == p.1) = true
    · rcases p with ⟨k0, v0⟩
      rw [beq_iff_eq] at hk
      subst hk
      rw [List.cons_append, lookup_cons_self, lookup_cons_self]
    · have hkf : (k' == p.1) = false := Bool.eq_false_iff.mpr hk
      rw [List.cons_append, lookup_cons_ne hkf, lookup_cons_ne hkf]
      exact ih

/-- `d[k] = v` makes `k` map to `v`. -/
lemma lookup_dictUpd_self (d : Meta) (k : String) (v : MVal) :
    (dictUpd d k v).lookup k = some v := by
  induction d with
  | nil => simp [dictUpd, List.lookup]
  | cons p tl ih =>
    by_cases hp : (p.1 == k) = true
    · have hany : ((p :: tl).any fun q => q.1 == k) = true := by simp [List.any_cons, hp]
      unfold dictUpd
      rw [if_pos hany, List.map_cons, if_pos hp]
      exact lookup_cons_self
    · have hpf : (p.1 == k) = false := Bool.eq_false_iff.mpr hp
      have hp' : (k == p.1) = false := by
        rw [beq_eq_false_iff_ne] at hpf ⊢
        exact fun h => hpf h.symm
      by_cases ht : (tl.any fun q => q.1 == k) = true
      · have hany : ((p :: tl).any fun q => q.1 == k) = true := by
          rw [List.any_cons, ht]
          simp
        unfold dictUpd
        rw [if_pos hany, List.map_cons, if_neg hp, lookup_cons_ne hp']
        unfold dictUpd at ih
        rw [if_pos ht] at ih
        exact ih
      · have htf : (tl.any fun q => q.1 == k) = false := Bool.eq_false_iff.mpr ht
        have hanot : ¬(((p :: tl).any fun q => q.1 == k) = true) := by
          rw [List.any_cons, hpf, htf]
          simp
        unfold dictUpd
        rw [if_neg hanot, List.cons_append, lookup_cons_ne hp']
        unfold dictUpd at ih
        rw [if_neg ht] at ih
        exact ih

/-- `d[k] = v` leaves all other keys unchanged. -/
lemma lookup_dictUpd_ne (d : Meta) (k k' : String) (v : MVal) (hne : k' ≠ k) :
    (dictUpd d k v).lookup k' = d.lookup k' := by
  unfold dictUpd
  by_cases hany : (d.any fun q => q.1 == k) = true
  · rw [if_pos hany]
    exact lookup_map_upd_ne d k k' v hne
  · rw [if_neg hany]
    exact lookup_append_single_ne d k k' v hne

/-- Keys absent from `b` keep their `a`-value across `{**a, **b}`. -/
lemma lookup_dictMerge_notin (a b : Meta) (k : String) (hb : b.lookup k = none) :
    (dictMerge a b).lookup k = a.lookup k := by
  induction b generalizing a with
  | nil => rfl
  | cons p tl ih =>
    rcases p with ⟨k0, v0⟩
    have h1 : (k == k0) = false := by
      by_contra h
      have h' : (k == k0) = true := by simpa using h
      rw [beq_iff_eq] at h'
      subst h'
      rw [lookup_cons_self] at hb
      exact Option.noConfusion hb
    have h2 : tl.lookup k = none := by rw [lookup_cons_ne h1] at hb; exact hb
    have hstep : dictMerge a ((k0, v0) :: tl) = dictMerge (dictUpd a k0 v0) tl := rfl
    rw [hstep, ih (dictUpd a k0 v0) h2, lookup_dictUpd_ne _ _ _ _ (beq_eq_false_iff_ne.mp h1)]

/-- Keys of `b` (with unique keys) take their `b`-value across `{**a, **b}`. -/
lemma lookup_dictMerge_of_nodup (a b : Meta) (k : String) (v : MVal)
    (hnd : (b.map Prod.fst).Nodup) (hb : b.lookup k = some v) :
    (dictMerge a b).lookup k = some v := by
  induction b generalizing a with
  | nil => simp [List.lookup] at hb
  | cons p tl ih =>
    rcases p with ⟨k0, v0⟩
    have hstep : dictMerge a ((k0, v0) :: tl) = dictMerge (dictUpd a k0 v0) tl := rfl
    rw [hstep]
    obtain ⟨hk0, hndtl⟩ := List.nodup_cons.mp (by rw [List.map_cons] at hnd; exact hnd)
    by_cases hk : (k == k0) = true
    · rw [beq_iff_eq] at hk
      subst hk
      have hv : v0 = v := by
        rw [lookup_cons_self] at hb
        exact Option.some.inj hb
      subst hv
      rw [lookup_dictMerge_notin _ _ _ (lookup_eq_none_of_notin tl k hk0)]
      exact lookup_dictUpd_self a k v0
    · have hkf : (k == k0) = false := Bool.eq_false_iff.mpr hk
      have hb' : tl.lookup k = some v := by
        rw [lookup_cons_ne hkf] at hb
        exact hb
      exact ih (dictUpd a k0 v0) hndtl hb'

/-- C10: because the caller's metadata is spread after `source`/`doc_id` in
`base_metadata` but before `chunk_index`/`chunk_id`, a caller-supplied
`'source'` or `'doc_id'` key overrides the generated value in every stored
chunk's metadata — so for some metadata input the stored `'doc_id'` differs
from the doc id returned by `add_document` — while `'chunk_index'` and
`'chunk_id'` always carry the generated values. -/
theorem chunkMetadata_override (st : VectorStore) (text : List Char) (source : String)
    (md : Meta) (docId i : Nat) (hnd : (md.map Prod.fst).Nodup) :
    (∀ v, md.lookup "doc_id" = some v →
      (chunkMetadata docId source md i).lookup "doc_id" = some v) ∧
    (∀ v, md.lookup "source" = some v →
      (chunkMetadata docId source md i).lookup "source" = some v) ∧
    ((chunkMetadata docId source md i).lookup "chunk_index" = some (MVal.i (i : Int))) ∧
    ((chunkMetadata docId source md i).lookup "chunk_id" = some (MVal.cid docId i)) ∧
    ((add_document st text source md).2.chunks =
      st.chunks ++ ((split_text text 1000 200).getD []).enum.map
        (fun ic => ⟨ic.2, chunkMetadata st.nextId source md ic.1⟩)) ∧
    (∃ md', (chunkMetadata docId source md' i).lookup "doc_id" ≠ some (MVal.id docId)) := by
  refine ⟨?_, ?_, ?_, ?_, rfl, ?_⟩
  · intro v hv
    unfold chunkMetadata
    rw [lookup_dictMerge_notin _ _ _ (by rfl)]
    exact lookup_dictMerge_of_nodup _ md _ v hnd hv
  · intro v hv
    unfold chunkMetadata
    rw [lookup_dictMerge_notin _ _ _ (by rfl)]
    exact lookup_dictMerge_of_nodup _ md _ v hnd hv
  · unfold chunkMetadata
    exact lookup_dictMerge_of_nodup _ _ _ _
      (by simp) (by rfl)
  · unfold chunkMetadata
    exact lookup_dictMerge_of_nodup _ _ _ _
      (by simp) (by rfl)
  · refine ⟨[("doc_id", MVal.s "x")], ?_⟩
    have h1 : (chunkMetadata docId source [("doc_id", MVal.s "x")] i).lookup "doc_id"
        = some (MVal.s "x") := by
      unfold chunkMetadata
      rw [lookup_dictMerge_notin _ _ _ (by rfl)]
      exact lookup_dictMerge_of_nodup _ _ _ _ (by decide) (by rfl)
    rw [h1]
    simp

theorem chunkMetadata_override_witness :
    (([("doc_id", MVal.s "boom")] : Meta).map Prod.fst).Nodup ∧
    ((∀ v, ([("doc_id", MVal.s "boom")] : Meta).lookup "doc_id" = some v →
      (chunkMetadata 7 "src" [("doc_id", MVal.s "boom")] 0).lookup "doc_id" = some v) ∧
    (∀ v, ([("doc_id", MVal.s "boom")] : Meta).lookup "source" = some v →
      (chunkMetadata 7 "src" [("doc_id", MVal.s "boom")] 0).lookup "source" = some v) ∧
    ((chunkMetadata 7 "src" [("doc_id", MVal.s "boom")] 0).lookup "chunk_index"
      = some (MVal.i ((0 : Nat) : Int))) ∧
    ((chunkMetadata 7 "src" [("doc_id", MVal.s "boom")] 0).lookup "chunk_id"
      = some (MVal.cid 7 0)) ∧
    ((add_document ⟨[], 7⟩ ['h'] "src" [("doc_id", MVal.s "boom")]).2.chunks =
      ([] : List StoredChunk) ++ ((split_text ['h'] 1000 200).getD []).enum.map
        (fun ic => ⟨ic.2, chunkMetadata 7 "src" [("doc_id", MVal.s "boom")] ic.1⟩)) ∧
    (∃ md', (chunkMetadata 7 "src" md' 0).lookup "doc_id" ≠ some (MVal.id 7))) :=
  ⟨by decide,
   chunkMetadata_override ⟨[], 7⟩ ['h'] "src" [("doc_id", MVal.s "boom")] 7 0 (by decide)⟩

/-! ### Grouping lemmas for `list_documents` / `get_document_count` -/

/-- The number of chunk-metadata dicts that report doc id `d`. -/
def countD (metas : List Meta) (d : MVal) : Nat :=
  metas.countP (fun md => md.lookup "doc_id" == some d)

/-- One grouping step: keys stay unique and truthy, a key appears afterwards
iff it was there before or this metadata contributes it, and each group's
count grows by this metadata's contribution to its key. -/
lemma addMeta_step (gs : List (MVal × DocGroup)) (m0 : Meta)
    (hkey : ∀ p ∈ gs, truthy p.1 = true ∧ p.2.doc_id = p.1)
    (hnd : (gs.map Prod.fst).Nodup) :
    (((addMeta gs m0).map Prod.fst).Nodup) ∧
    (∀ p ∈ addMeta gs m0, truthy p.1 = true ∧ p.2.doc_id = p.1) ∧
    (∀ d, d ∈ (addMeta gs m0).map Prod.fst ↔
      d ∈ gs.map Prod.fst ∨ (truthy d = true ∧ m0.lookup "doc_id" = some d)) ∧
    (∀ p1 ∈ addMeta gs m0,
      (∃ p ∈ gs, p.1 = p1.1 ∧
        p1.2.chunks = p.2.chunks + (if (m0.lookup "doc_id" == some p.1) = true then 1 else 0)) ∨
      (p1.1 ∉ gs.map Prod.fst ∧
        p1.2.chunks = (if (m0.lookup "doc_id" == some p1.1) = true then 1 else 0))) := by
  cases hm : m0.lookup "doc_id" with
  | none =>
    have ha : addMeta gs m0 = gs := by unfold addMeta; rw [hm]
    rw [ha]
    refine ⟨hnd, hkey, ?_, ?_⟩
    · intro d
      simp
    · intro p1 hp1
      exact Or.inl ⟨p1, hp1, rfl, by simp⟩
  | some did =>
    by_cases htr : truthy did = true
    · by_cases hany : (gs.any fun p => p.1 == did) = true
      · -- key already present: bump its count
        have hin : did ∈ gs.map Prod.fst := by
          rw [List.any_eq_true] at hany
          obtain ⟨p, hp, hpd⟩ := hany
          rw [beq_iff_eq] at hpd
          exact hpd ▸ List.mem_map_of_mem _ hp
        have ha : addMeta gs m0 =
            gs.map (fun p => if p.1 == did then (p.1, { p.2 with chunks := p.2.chunks + 1 })
              else p) := by
          unfold addMeta
          simp only [hm]
          rw [if_pos htr, if_pos hany]
        have hfst : ∀ p : MVal × DocGroup,
            (if p.1 == did then (p.1, { p.2 with chunks := p.2.chunks + 1 }) else p).1
              = p.1 := by
          intro p
          by_cases h : (p.1 == did) = true <;> simp [h]
        have hkeys : (addMeta gs m0).map Prod.fst = gs.map Prod.fst := by
          rw [ha, List.map_map]
          refine List.map_congr_left ?_
          intro p _
          exact hfst p
        refine ⟨by rw [hkeys]; exact hnd, ?_, ?_, ?_⟩
        · intro p1 hp1
          rw [ha, List.mem_map] at hp1
          obtain ⟨p, hp, rfl⟩ := hp1
          obtain ⟨h1, h2⟩ := hkey p hp
          by_cases h : (p.1 == did) = true <;> simp [h, h1, h2]
        · intro d
          rw [hkeys]
          constructor
          · exact Or.inl
          · rintro (h | ⟨ht, hd⟩)
            · exact h
            · exact (Option.some.inj hd) ▸ hin
        · intro p1 hp1
          rw [ha, List.mem_map] at hp1
          obtain ⟨p, hp, rfl⟩ := hp1
          refine Or.inl ⟨p, hp, (hfst p).symm, ?_⟩
          by_cases h : (p.1 == did) = true
          · have hph : p.1 = did := beq_iff_eq.mp h
            simp [hph]
          · have hph : did ≠ p.1 := fun hc => h (beq_iff_eq.mpr hc.symm)
            simp [h, hph]
      · -- new key: append a fresh group with count 1
        have hnotin : did ∉ gs.map Prod.fst := by
          intro hmem
          rw [List.mem_map] at hmem
          obtain ⟨p, hp, hpd⟩ := hmem
          exact hany (List.any_eq_true.mpr ⟨p, hp, beq_iff_eq.mpr hpd⟩)
        have ha : addMeta gs m0 =
            gs ++ [(did, ⟨did, (m0.lookup "source").getD (MVal.s "Unknown"), 1, m0⟩)] := by
          unfold addMeta
          simp only [hm]
          rw [if_pos htr, if_neg hany]
        have hkeys : (addMeta gs m0).map Prod.fst = gs.map Prod.fst ++ [did] := by
          rw [ha, List.map_append]
          rfl
        refine ⟨?_, ?_, ?_, ?_⟩
        · rw [hkeys]
          exact List.Nodup.append hnd (List.nodup_singleton did)
            (fun a hag had => hnotin ((List.mem_singleton.mp had) ▸ hag))
        · intro p1 hp1
          rw [ha, List.mem_append] at hp1
          rcases hp1 with hp1 | hp1
          · exact hkey p1 hp1
          · rw [List.mem_singleton] at hp1
            subst hp1
            exact ⟨htr, rfl⟩
        · intro d
          rw [hkeys, List.mem_append, List.mem_singleton]
          constructor
          · rintro (h | rfl)
            · exact Or.inl h
            · exact Or.inr ⟨htr, rfl⟩
          · rintro (h | ⟨ht, hd⟩)
            · exact Or.inl h
            · exact Or.inr (Option.some.inj hd).symm
        · intro p1 hp1
          rw [ha, List.mem_append] at hp1
          rcases hp1 with hp1 | hp1
          · refine Or.inl ⟨p1, hp1, rfl, ?_⟩
            have hne : did ≠ p1.1 := by
              intro hc
              exact hnotin (hc ▸ List.mem_map_of_mem _ hp1)
            simp [hne]
          · rw [List.mem_singleton] at hp1
            subst hp1
            exact Or.inr ⟨hnotin, by simp⟩
    · -- falsy doc id: skipped entirely
      have ha : addMeta gs m0 = gs := by
        unfold addMeta
        simp only [hm]
        rw [if_neg htr]
      rw [ha]
      refine ⟨hnd, hkey, ?_, ?_⟩
      · intro d
        constructor
        · exact Or.inl
        · rintro (h | ⟨ht, hd⟩)
          · exact h
          · exact absurd ((Option.some.inj hd) ▸ ht) htr
      · intro p1 hp1
        refine Or.inl ⟨p1, hp1, rfl, ?_⟩
        have hne : did ≠ p1.1 := by
          intro hc
          obtain ⟨ht, _⟩ := hkey p1 hp1
          exact htr (hc ▸ ht)
        simp [hne]

/-- Folding the grouping loop over chunk metadata: keys are unique, truthy,
appear iff contributed, and each group's `chunks` counter equals the number of
metadata dicts carrying its doc id. -/
lemma addMeta_fold (metas : List Meta) (gs : List (MVal × DocGroup))
    (hkey : ∀ p ∈ gs, truthy p.1 = true ∧ p.2.doc_id = p.1)
    (hnd : (gs.map Prod.fst).Nodup) :
    (((metas.foldl addMeta gs).map Prod.fst).Nodup) ∧
    (∀ p ∈ metas.foldl addMeta gs, truthy p.1 = true ∧ p.2.doc_id = p.1) ∧
    (∀ d, d ∈ (metas.foldl addMeta gs).map Prod.fst ↔
      d ∈ gs.map Prod.fst ∨ (truthy d = true ∧ ∃ md ∈ metas, md.lookup "doc_id" = some d)) ∧
    (∀ p' ∈ metas.foldl addMeta gs,
      (∃ p ∈ gs, p.1 = p'.1 ∧ p'.2.chunks = p.2.chunks + countD metas p.1) ∨
      (p'.1 ∉ gs.map Prod.fst ∧ p'.2.chunks = countD metas p'.1)) := by
  induction metas generalizing gs with
  | nil =>
    refine ⟨hnd, hkey, ?_, ?_⟩
    · intro d
      simp
    · intro p' hp'
      exact Or.inl ⟨p', hp', rfl, by simp [countD]⟩
  | cons m0 rest ih =>
    obtain ⟨snd, skey, smem, scnt⟩ := addMeta_step gs m0 hkey hnd
    obtain ⟨Hnd, Hkey, Hmem, Hcnt⟩ := ih (addMeta gs m0) skey snd
    rw [List.foldl_cons]
    have hcd : ∀ d, countD (m0 :: rest) d
        = (if (m0.lookup "doc_id" == some d) = true then 1 else 0) + countD rest d := by
      intro d
      unfold countD
      simp only [List.countP_cons]
      omega
    refine ⟨Hnd, Hkey, ?_, ?_⟩
    · intro d
      rw [Hmem d, smem d]
      constructor
      · rintro ((h | ⟨ht, hm⟩) | ⟨ht, md, hmd, hl⟩)
        · exact Or.inl h
        · exact Or.inr ⟨ht, m0, List.mem_cons_self _ _, hm⟩
        · exact Or.inr ⟨ht, md, List.mem_cons_of_mem _ hmd, hl⟩
      · rintro (h | ⟨ht, md, hmd, hl⟩)
        · exact Or.inl (Or.inl h)
        · rcases List.mem_cons.mp hmd with rfl | hmd'
          · exact Or.inl (Or.inr ⟨ht, hl⟩)
          · exact Or.inr ⟨ht, md, hmd', hl⟩
    · intro p' hp'
      rcases Hcnt p' hp' with ⟨p1, hp1, hk1, hc1⟩ | ⟨hnotin1, hc1⟩
      · rcases scnt p1 hp1 with ⟨p, hp, hk, hc⟩ | ⟨hnotin, hc⟩
        · refine Or.inl ⟨p, hp, hk.trans hk1, ?_⟩
          rw [hc1, hc, ← hk, hcd p.1]
          omega
        · refine Or.inr ⟨hk1 ▸ hnotin, ?_⟩
          rw [hc1, hc, hk1, hcd p'.1]
      · have hnotin : p'.1 ∉ gs.map Prod.fst := fun h => hnotin1 ((smem p'.1).mpr (Or.inl h))
        have hm0 : (m0.lookup "doc_id" == some p'.1) = false := by
          by_contra hb
          have hb' : (m0.lookup "doc_id" == some p'.1) = true := by simpa using hb
          rw [beq_iff_eq] at hb'
          exact hnotin1 ((smem p'.1).mpr (Or.inr ⟨(Hkey p' hp').1, hb'⟩))
        refine Or.inr ⟨hnotin, ?_⟩
        rw [hc1, hcd p'.1, hm0]
        simp

/-- C8 counterexample: the record built by `list_documents` uses the dict key
`'chunks'`, not `'chunk_count'`. -/
theorem list_documents_cex :
    (list_documents ⟨[⟨['x'], [("doc_id", MVal.id 3), ("source", MVal.s "A")]⟩], 4⟩).map
      (fun r => r.map Prod.fst) = [["doc_id", "source", "chunks", "metadata"]] ∧
    "chunk_count" ∉
      ((list_documents ⟨[⟨['x'], [("doc_id", MVal.id 3), ("source", MVal.s "A")]⟩], 4⟩).getD 0
        []).map Prod.fst := by
  refine ⟨by decide, by decide⟩

/-- C8 amended: `list_documents()` returns one record per distinct *truthy*
stored `doc_id` (chunks with a missing or falsy `doc_id` are skipped), and
each record is a dict with exactly the keys `doc_id`, `source`, `chunks` —
the per-document chunk count, under the code's key name `'chunks'` rather
than the spec's `chunk_count` — and `metadata`. -/
theorem list_documents_spec (st : VectorStore) :
    (list_documents st = (listGroups st).map (fun p => p.2.toDict)) ∧
    (∀ r ∈ list_documents st, r.map Prod.fst = ["doc_id", "source", "chunks", "metadata"]) ∧
    ((listGroups st).map Prod.fst).Nodup ∧
    (∀ d, d ∈ (listGroups st).map Prod.fst ↔
      (truthy d = true ∧ ∃ c ∈ st.chunks, c.metadata.lookup "doc_id" = some d)) ∧
    (∀ p ∈ listGroups st, p.2.doc_id = p.1 ∧
      p.2.chunks = (st.chunks.filter
        (fun c => c.metadata.lookup "doc_id" == some p.1)).length) := by
  obtain ⟨Hnd, Hkey, Hmem, Hcnt⟩ :=
    addMeta_fold (st.chunks.map (·.metadata)) [] (by simp) (by simp)
  refine ⟨rfl, ?_, Hnd, ?_, ?_⟩
  · intro r hr
    simp only [list_documents, List.mem_map] at hr
    obtain ⟨p, _, rfl⟩ := hr
    rfl
  · intro d
    rw [show (listGroups st).map Prod.fst
        = ((st.chunks.map (·.metadata)).foldl addMeta []).map Prod.fst from rfl, Hmem d]
    constructor
    · rintro (h | ⟨ht, md, hmd, hl⟩)
      · simp at h
      · rw [List.mem_map] at hmd
        obtain ⟨c, hc, rfl⟩ := hmd
        exact ⟨ht, c, hc, hl⟩
    · rintro ⟨ht, c, hc, hl⟩
      exact Or.inr ⟨ht, c.metadata, List.mem_map_of_mem _ hc, hl⟩
  · intro p hp
    refine ⟨(Hkey p hp).2, ?_⟩
    rcases Hcnt p hp with ⟨q, hq, _, _⟩ | ⟨_, hc⟩
    · simp at hq
    · rw [hc]
      unfold countD
      rw [List.countP_map, ← List.countP_eq_length_filter]
      rfl

/-- When the caller metadata has no `'doc_id'` key, every stored chunk carries
the generated doc id. -/
lemma lookup_chunkMetadata_docId (docId : Nat) (source : String) (md : Meta) (i : Nat)
    (h : md.lookup "doc_id" = none) :
    (chunkMetadata docId source md i).lookup "doc_id" = some (MVal.id docId) := by
  unfold chunkMetadata
  rw [lookup_dictMerge_notin _ _ _ (by rfl), lookup_dictMerge_notin _ _ _ h]
  rfl

/-- `get_document_count` is the number of groups. -/
lemma get_document_count_eq (st : VectorStore) :
    get_document_count st = (listGroups st).length := by
  unfold get_document_count list_documents
  rw [List.length_map]

/-- Store invariant: every stored chunk's doc id is a token drawn earlier from
the fresh-id supply. -/
def StoreInv (st : VectorStore) : Prop :=
  ∀ c ∈ st.chunks, ∀ v, c.metadata.lookup "doc_id" = some v →
    ∃ j, v = MVal.id j ∧ j < st.nextId

lemma listGroups_keys_inv (st : VectorStore) (hinv : StoreInv st) :
    ∀ d ∈ (listGroups st).map Prod.fst, ∃ j, d = MVal.id j ∧ j < st.nextId := by
  intro d hd
  obtain ⟨_, _, Hmem, _⟩ := addMeta_fold (st.chunks.map (·.metadata)) [] (by simp) (by simp)
  rcases (Hmem d).mp hd with h | ⟨ht, md, hmd, hl⟩
  · simp at h
  · rw [List.mem_map] at hmd
    obtain ⟨c, hc, rfl⟩ := hmd
    exact hinv c hc d hl

/-- Appending a batch of chunks that all carry one fresh truthy doc id adds
exactly one group. -/
lemma listGroups_append_fresh (st : VectorStore) (newChunks : List StoredChunk)
    (did : MVal) (k : Nat)
    (htr : truthy did = true)
    (hnew : ∀ c ∈ newChunks, c.metadata.lookup "doc_id" = some did)
    (hne : newChunks ≠ [])
    (hfresh : did ∉ (listGroups st).map Prod.fst) :
    (listGroups ⟨st.chunks ++ newChunks, k⟩).length = (listGroups st).length + 1 := by
  obtain ⟨hnd0, hkey0, _, _⟩ :=
    addMeta_fold (st.chunks.map (·.metadata)) [] (by simp) (by simp)
  have hnd0' : ((listGroups st).map Prod.fst).Nodup := hnd0
  have hkey0' : ∀ p ∈ listGroups st, truthy p.1 = true ∧ p.2.doc_id = p.1 := hkey0
  have hsplit : listGroups ⟨st.chunks ++ newChunks, k⟩
      = (newChunks.map (·.metadata)).foldl addMeta (listGroups st) := by
    show ((st.chunks ++ newChunks).map (·.metadata)).foldl addMeta [] = _
    rw [List.map_append, List.foldl_append]
    rfl
  obtain ⟨Hnd, _, Hmem, _⟩ :=
    addMeta_fold (newChunks.map (·.metadata)) (listGroups st) hkey0' hnd0' 
  rw [hsplit]
  have hmem' : ∀ d,
      d ∈ ((newChunks.map (·.metadata)).foldl addMeta (listGroups st)).map Prod.fst
      ↔ d ∈ (listGroups st).map Prod.fst ∨ d = did := by
    intro d
    rw [Hmem d]
    constructor
    · rintro (h | ⟨ht, md, hmd, hl⟩)
      · exact Or.inl h
      · rw [List.mem_map] at hmd
        obtain ⟨c, hc, rfl⟩ := hmd
        rw [hnew c hc] at hl
        exact Or.inr (Option.some.inj hl).symm
    · rintro (h | rfl)
      · exact Or.inl h
      · obtain ⟨c, hc⟩ := List.exists_mem_of_ne_nil newChunks hne
        exact Or.inr ⟨htr, c.metadata, List.mem_map_of_mem _ hc, hnew c hc⟩
  have h1 : ((newChunks.map (·.metadata)).foldl addMeta (listGroups st)).length
      = (((newChunks.map (·.metadata)).foldl addMeta (listGroups st)).map Prod.fst).length := by
    rw [List.length_map]
  have h2 : (listGroups st).length = ((listGroups st).map Prod.fst).length := by
    rw [List.length_map]
  rw [h1, h2, ← List.toFinset_card_of_nodup Hnd, ← List.toFinset_card_of_nodup hnd0']
  have hset : (((newChunks.map (·.metadata)).foldl addMeta (listGroups st)).map
      Prod.fst).toFinset = insert did ((listGroups st).map Prod.fst).toFinset := by
    apply Finset.ext
    intro a
    rw [List.mem_toFinset, Finset.mem_insert, List.mem_toFinset, hmem' a]
    tauto
  rw [hset, Finset.card_insert_of_not_mem (by rw [List.mem_toFinset]; exact hfresh)]

/-- `add_document` preserves the fresh-id invariant. -/
lemma storeInv_add (st : VectorStore) (text : List Char) (source : String) (md : Meta)
    (hinv : StoreInv st) (hmd : md.lookup "doc_id" = none) :
    StoreInv (add_document st text source md).2 := by
  intro c hc v hv
  simp only [add_document] at hc
  rw [List.mem_append] at hc
  rcases hc with hc | hc
  · obtain ⟨j, rfl, hj⟩ := hinv c hc v hv
    exact ⟨j, rfl, by simp only [add_document]; omega⟩
  · rw [List.mem_map] at hc
    obtain ⟨ic, _, rfl⟩ := hc
    rw [lookup_chunkMetadata_docId _ _ _ _ hmd] at hv
    exact ⟨st.nextId, (Option.some.inj hv).symm, by simp [add_document]⟩

/-- One `add_document` call with clean metadata and a nonempty chunk list
raises the document count by exactly one. -/
lemma count_add_fresh (st : VectorStore) (text : List Char) (source : String) (md : Meta)
    (hinv : StoreInv st) (hmd : md.lookup "doc_id" = none)
    (hch : (split_text text 1000 200).getD [] ≠ []) :
    get_document_count (add_document st text source md).2 = get_document_count st + 1 := by
  have hfresh : MVal.id st.nextId ∉ (listGroups st).map Prod.fst := by
    intro h
    obtain ⟨j, hj, hlt⟩ := listGroups_keys_inv st hinv _ h
    rw [MVal.id.injEq] at hj
    omega
  have hnew : ∀ c ∈ ((split_text text 1000 200).getD []).enum.map
      (fun ic => (⟨ic.2, chunkMetadata st.nextId source md ic.1⟩ : StoredChunk)),
      c.metadata.lookup "doc_id" = some (MVal.id st.nextId) := by
    intro c hc
    rw [List.mem_map] at hc
    obtain ⟨ic, _, rfl⟩ := hc
    exact lookup_chunkMetadata_docId _ _ _ _ hmd
  have hne : ((split_text text 1000 200).getD []).enum.map
      (fun ic => (⟨ic.2, chunkMetadata st.nextId source md ic.1⟩ : StoredChunk)) ≠ [] := by
    intro h
    apply hch
    have hlen := congrArg List.length h
    rw [List.length_map, List.enum_length] at hlen
    exact List.length_eq_zero.mp hlen
  rw [get_document_count_eq, get_document_count_eq]
  exact listGroups_append_fresh st _ (MVal.id st.nextId) _ rfl hnew hne hfresh

/-- C7 counterexample.  With caller metadata `{'doc_id': ''}` the stored doc
ids are the falsy `''`, `list_documents` skips them, and two adds leave the
count at 0 (not +2), though the returned ids do differ; with a 1001-space
text every chunk trims to empty and nothing is stored at all, so the count
again stays 0. -/
theorem add_document_cex :
    ((add_document ⟨[], 0⟩ ['h', 'i'] "src" [("doc_id", MVal.s "")]).1 ≠
      (add_document (add_document ⟨[], 0⟩ ['h', 'i'] "src" [("doc_id", MVal.s "")]).2
        ['h', 'i'] "src" [("doc_id", MVal.s "")]).1) ∧
    get_document_count ⟨[], 0⟩ = 0 ∧
    get_document_count
      (add_document (add_document ⟨[], 0⟩ ['h', 'i'] "src" [("doc_id", MVal.s "")]).2
        ['h', 'i'] "src" [("doc_id", MVal.s "")]).2 = 0 ∧
    get_document_count
      (add_document (add_document ⟨[], 0⟩ (List.replicate 1001 ' ') "src" []).2
        (List.replicate 1001 ' ') "src" []).2 = 0 := by
  refine ⟨by decide, rfl, by decide, by decide⟩

/-- C7 amended: `add_document` returns a fresh, distinct doc id on every call
(no deduplication); and provided the caller metadata does not override the
`'doc_id'` key and the text yields at least one stored chunk, two successive
identical calls raise `get_document_count()` by exactly 2. -/
theorem add_document_spec (st : VectorStore) (text : List Char) (source : String) (md : Meta)
    (hinv : StoreInv st)
    (hmd : md.lookup "doc_id" = none)
    (hch : (split_text text 1000 200).getD [] ≠ []) :
    (add_document st text source md).1 ≠
      (add_document (add_document st text source md).2 text source md).1 ∧
    get_document_count (add_document (add_document st text source md).2 text source md).2 =
      get_document_count st + 2 := by
  constructor
  · show MVal.id st.nextId ≠ MVal.id (st.nextId + 1)
    simp
  · rw [count_add_fresh (add_document st text source md).2 text source md
      (storeInv_add st text source md hinv hmd) hmd hch,
      count_add_fresh st text source md hinv hmd hch]

theorem add_document_spec_witness :
    StoreInv ⟨[], 0⟩ ∧ (([] : Meta).lookup "doc_id" = none) ∧
    ((split_text ['h', 'i'] 1000 200).getD [] ≠ []) ∧
    ((add_document ⟨[], 0⟩ ['h', 'i'] "src" []).1 ≠
      (add_document (add_document ⟨[], 0⟩ ['h', 'i'] "src" []).2 ['h', 'i'] "src" []).1 ∧
    get_document_count (add_document (add_document ⟨[], 0⟩ ['h', 'i'] "src" []).2
      ['h', 'i'] "src" []).2 = get_document_count ⟨[], 0⟩ + 2) :=
  ⟨fun c hc => absurd hc (List.not_mem_nil c), rfl, by decide,
   add_document_spec ⟨[], 0⟩ ['h', 'i'] "src" []
     (fun c hc => absurd hc (List.not_mem_nil c)) rfl (by decide)⟩
